import Mathlib

/-!
Verification of the tag-input editing buffer (chen-ziwen/tag-input).

Shallow embedding of the core of the component: the entry (segment) model,
the bracketed-string codec in src/components/TagInput.vue
(parseStringToContent and contentToString), the DOM-reconciliation step
(updateModelValue, in its string-form and list-form variants), the
backspace-target resolution (findTagToDelete), and the cursor utilities
of src/utils/CursorManager.ts (getDefaultRange, removeElementAndAdjustCursor,
the range fallback of handleTagClick).

Strings are modelled as lists of characters, DOM child-node lists as lists
of a small node type, and a collapsed caret as a sum of the three start
containers the source distinguishes (the root contenteditable element, a
text-node child, an element child).
-/

namespace TagInput

/-- The two entry kinds of the value arrays in the source
(type valueType = "text" | "tag"). -/
inductive EntryType
  | text
  | tag
deriving DecidableEq

/-- One element of the value arrays built by the source
(Array of objects with fields type and value); the value string is a
character list. -/
structure Entry where
  type : EntryType
  value : List Char
deriving DecidableEq

/-- contentToString from TagInput.vue: each text entry contributes its value
verbatim, each tag entry contributes the value wrapped in braces, all joined
into one string. -/
def contentToString (content : List Entry) : List Char :=
  (content.map fun item =>
    if item.type = EntryType.text then item.value
    else '{' :: item.value ++ ['}']).flatten

/-- Character-level model of the global regex scan in parseStringToContent.
The source repeatedly applies the pattern "open brace, one or more
characters other than a closing brace, closing brace" left to right: the
leftmost match starts at the first open brace whose nearest following
closing brace is at distance at least two; the captured identifier is the
run of characters strictly between those braces; gaps between matches
become text entries when non-empty; after the last match the remaining
characters become a final text entry when non-empty.

The scan is rendered as a single pass: acc holds (reversed) the plain text
read since the last emitted entry; the third argument is none while outside
a candidate match and holds the (reversed) characters read since an open
brace while inside one.  An open brace immediately followed by a closing
brace, or never followed by one, is literal text, exactly as the regex
leaves it unmatched. -/
def scanSM : List Char → List Char → Option (List Char) → List Entry
  | [], acc, none => if acc = [] then [] else [⟨EntryType.text, acc.reverse⟩]
  | [], acc, some pend => [⟨EntryType.text, acc.reverse ++ '{' :: pend.reverse⟩]
  | c :: rest, acc, none =>
      if c = '{' then scanSM rest acc (some [])
      else scanSM rest (c :: acc) none
  | c :: rest, acc, some pend =>
      if c = '}' then
        if pend = [] then scanSM rest ('}' :: '{' :: acc) none
        else (if acc = [] then [] else [⟨EntryType.text, acc.reverse⟩]) ++
          ⟨EntryType.tag, pend.reverse⟩ :: scanSM rest [] none
      else scanSM rest acc (some (c :: pend))

/-- parseStringToContent from TagInput.vue: the empty string decodes to the
empty array, otherwise the string is scanned with the tag pattern. -/
def parseStringToContent (str : List Char) : List Entry :=
  if str = [] then [] else scanSM str [] none

/-- Modelled from the spec: normalize (section 4.1) merges adjacent Text
segments and drops empty Text segments, producing the canonical form; no
function of this name exists in src, the spec introduces it to state the
round-trip and canonical-form laws.  pushText prepends a text run onto an
already-normalized tail, merging with a leading text entry and dropping an
empty run. -/
def pushText (t : List Char) (l : List Entry) : List Entry :=
  if t = [] then l
  else
    match l with
    | ⟨EntryType.text, u⟩ :: l2 => ⟨EntryType.text, t ++ u⟩ :: l2
    | _ => ⟨EntryType.text, t⟩ :: l

/-- Modelled from the spec: normalize (section 4.1), see pushText. -/
def normalize : List Entry → List Entry
  | [] => []
  | e :: rest =>
      if e.type = EntryType.text then pushText e.value (normalize rest)
      else e :: normalize rest

/-- Decidable form of the canonical-form clause "no two consecutive Text
segments exist". -/
def noAdjTexts : List Entry → Bool
  | ⟨EntryType.text, _⟩ :: ⟨EntryType.text, _⟩ :: _ => false
  | _ :: rest => noAdjTexts rest
  | [] => true

/-- Whether a list of entries starts with a text entry. -/
def headIsText : List Entry → Bool
  | ⟨EntryType.text, _⟩ :: _ => true
  | _ => false

/-- Decidable form of "every entry has a non-empty value". -/
def valuesNonempty (l : List Entry) : Bool :=
  l.all fun e => !e.value.isEmpty

/-- Decidable form of "every text entry has a non-empty value". -/
def textValuesNonempty (l : List Entry) : Bool :=
  l.all fun e =>
    match e.type with
    | EntryType.text => !e.value.isEmpty
    | EntryType.tag => true

/-- A child node of the contenteditable container, as the source
distinguishes them: a DOM text node with its text content, an element with
class tag-container and its data-tag attribute, or any other element. -/
inductive DomNode
  | textNode (s : List Char)
  | tagContainer (tag : List Char)
  | otherElement
deriving DecidableEq

/-- isTagContainer from TagInput.vue: whether an element carries the
tag-container class (text nodes have no classList). -/
def isTagContainer : DomNode → Bool
  | DomNode.tagContainer _ => true
  | _ => false

/-- Whether a child node is an element node (as opposed to a text node). -/
def isElement : DomNode → Bool
  | DomNode.textNode _ => false
  | _ => true

/-- The lastElementChild property read by findTagToDelete: the last child
that is an element, text nodes skipped. -/
def lastElementChild (nodes : List DomNode) : Option DomNode :=
  (nodes.filter isElement).getLast?

/-- A collapsed caret as reported by the selection: its start container is
the root contenteditable element (with a child offset), a text-node child
(with a character offset), or a descendant of an element child. -/
inductive Caret
  | root (off : Nat)
  | inText (idx off : Nat)
  | inElem (idx : Nat)
deriving DecidableEq

/-- updateModelValue from TagInput.vue (string-form component): rebuild the
value array from the container children; a text node contributes a text
entry when its content is non-empty, a tag-container element contributes a
tag entry when its data-tag is non-empty, every other node is skipped.  No
trimming and no merging of adjacent text nodes is performed. -/
def updateModelValue : List DomNode → List Entry
  | [] => []
  | DomNode.textNode s :: rest =>
      if s = [] then updateModelValue rest
      else ⟨EntryType.text, s⟩ :: updateModelValue rest
  | DomNode.tagContainer t :: rest =>
      if t = [] then updateModelValue rest
      else ⟨EntryType.tag, t⟩ :: updateModelValue rest
  | DomNode.otherElement :: rest => updateModelValue rest

/-- JS String.prototype.trim on a character list: leading and trailing
whitespace removed. -/
def trimChars (s : List Char) : List Char :=
  ((s.dropWhile Char.isWhitespace).reverse.dropWhile Char.isWhitespace).reverse

/-- updateModelValue from the list-form variant of the component
(src/unnamed/part_000): identical to the string-form reconcile except that
each text node content is trimmed before the emptiness check and the
trimmed value is stored. -/
def updateModelValueList : List DomNode → List Entry
  | [] => []
  | DomNode.textNode s :: rest =>
      if trimChars s = [] then updateModelValueList rest
      else ⟨EntryType.text, trimChars s⟩ :: updateModelValueList rest
  | DomNode.tagContainer t :: rest =>
      if t = [] then updateModelValueList rest
      else ⟨EntryType.tag, t⟩ :: updateModelValueList rest
  | DomNode.otherElement :: rest => updateModelValueList rest

/-- The trimming policy stated by the spec as an explicit configuration
flag, applied to the reconcile step shared by the two observed variants;
with the flag set text nodes are trimmed before the emptiness check,
without it they are kept verbatim. -/
def updateModelValueCfg (trim : Bool) : List DomNode → List Entry
  | [] => []
  | DomNode.textNode s :: rest =>
      let t := if trim then trimChars s else s
      if t = [] then updateModelValueCfg trim rest
      else ⟨EntryType.text, t⟩ :: updateModelValueCfg trim rest
  | DomNode.tagContainer t :: rest =>
      if t = [] then updateModelValueCfg trim rest
      else ⟨EntryType.tag, t⟩ :: updateModelValueCfg trim rest
  | DomNode.otherElement :: rest => updateModelValueCfg trim rest

/-- renderModelValue from TagInput.vue: each text entry becomes a text
node, each tag entry becomes a tag-container element. -/
def renderModelValue (content : List Entry) : List DomNode :=
  content.map fun item =>
    if item.type = EntryType.text then DomNode.textNode item.value
    else DomNode.tagContainer item.value

/-- findTagToDelete from TagInput.vue.  Case 1: the caret start container
lies inside an element child, and the ancestor walk returns that child when
it is a tag container.  Case 2: the caret is at offset 0 of a text-node
child and the previous sibling is a tag container.  Case 3: the caret is in
the root container at a positive offset and the child just before the
offset is a tag container.  Case 4: the caret is in the root container at
an offset equal to the number of children and the last element child is a
tag container. -/
def findTagToDelete (nodes : List DomNode) : Caret → Option DomNode
  | Caret.inElem idx =>
      match nodes[idx]? with
      | some n => if isTagContainer n then some n else none
      | none => none
  | Caret.inText idx off =>
      if off = 0 then
        match idx with
        | 0 => none
        | i + 1 =>
            match nodes[i]? with
            | some n => if isTagContainer n then some n else none
            | none => none
      else none
  | Caret.root off =>
      let case3 : Option DomNode :=
        if off > 0 then
          match nodes[off - 1]? with
          | some n => if isTagContainer n then some n else none
          | none => none
        else none
      match case3 with
      | some n => some n
      | none =>
          if off = nodes.length then
            match lastElementChild nodes with
            | some n => if isTagContainer n then some n else none
            | none => none
          else none

/-- removeElementAndAdjustCursor from CursorManager.ts applied to child i of
the container: a collapsed range is placed immediately before the element,
the element is removed from the child list, and the range (which stays at
the same child offset once the element is gone) is restored. -/
def removeElementAndAdjustCursor (nodes : List DomNode) (i : Nat) :
    List DomNode × Caret :=
  (nodes.eraseIdx i, Caret.root i)

/-- getDefaultRange from CursorManager.ts: a collapsed range at the end of
the container contents. -/
def getDefaultRange (nodes : List DomNode) : Caret :=
  Caret.root nodes.length

/-- The containment test of handleTagClick: whether the common ancestor
container of a saved range is still inside the editable container.  A range
whose start container is the root is always inside; a range inside a
text-node or element child is inside exactly when that child is still
present with the remembered node type. -/
def rangeInContainer (nodes : List DomNode) : Caret → Bool
  | Caret.root _ => true
  | Caret.inText i _ =>
      match nodes[i]? with
      | some (DomNode.textNode _) => true
      | _ => false
  | Caret.inElem i =>
      match nodes[i]? with
      | some n => isElement n
      | _ => false

/-- Whether a caret denotes a position inside the current buffer. -/
def caretValid (nodes : List DomNode) : Caret → Bool
  | Caret.root off => off ≤ nodes.length
  | Caret.inText i off =>
      match nodes[i]? with
      | some (DomNode.textNode s) => off ≤ s.length
      | _ => false
  | Caret.inElem i => i < nodes.length

/-- The target-range resolution of handleTagClick: the saved range is used
when present and still inside the container, otherwise the default range at
the end of the buffer. -/
def handleTagClickTargetRange (nodes : List DomNode) (saved : Option Caret) :
    Caret :=
  match saved with
  | some r => if rangeInContainer nodes r then r else getDefaultRange nodes
  | none => getDefaultRange nodes

/-- insertToken: the token-insert request of handleTagClick with the caret
at a root child offset p; a new tag container is inserted among the
children at p, and the buffer is re-derived by updateModelValue. -/
def insertToken (b : List Entry) (p : Nat) (t : List Char) : List Entry :=
  updateModelValue ((renderModelValue b).insertIdx p (DomNode.tagContainer t))

/-- deleteToken: the token-remove request; child i is removed via
removeElementAndAdjustCursor and the buffer re-derived by
updateModelValue. -/
def deleteToken (b : List Entry) (i : Nat) : List Entry :=
  updateModelValue (removeElementAndAdjustCursor (renderModelValue b) i).1

/-- Buffers reachable through the mutation engine: an initial buffer decoded
from a model-value string, then any composition of token insertions and
token deletions. -/
inductive Reachable : List Entry → Prop
  | init (s : List Char) : Reachable (parseStringToContent s)
  | insert (b : List Entry) (p : Nat) (t : List Char) :
      Reachable b → Reachable (insertToken b p t)
  | delete (b : List Entry) (i : Nat) :
      Reachable b → Reachable (deleteToken b i)

/-- Decidable form of "every tag entry has a non-empty identifier free of
closing braces". -/
def tagValuesOK (b : List Entry) : Bool :=
  b.all fun e =>
    match e.type with
    | EntryType.tag => !e.value.isEmpty && !e.value.contains '}'
    | EntryType.text => true

/-- Decidable form of "no text entry contains an open brace". -/
def textValuesNoBrace (b : List Entry) : Bool :=
  b.all fun e =>
    match e.type with
    | EntryType.text => !e.value.contains '{'
    | EntryType.tag => true

/-- Decidable form of "no text node of the surface carries surrounding
whitespace". -/
def surfaceTrimInvariant (nodes : List DomNode) : Bool :=
  nodes.all fun n =>
    match n with
    | DomNode.textNode s => trimChars s == s
    | _ => true

/-- The label resolution of createTagElement: the Token Catalog entry when
present and non-empty, otherwise the identifier itself (modelling the
JavaScript or-fallback on the catalog lookup). -/
def displayLabel (tags : List (List Char × List Char)) (tag : List Char) :
    List Char :=
  match tags.lookup tag with
  | some l => if l = [] then tag else l
  | none => tag

/-! Helper lemmas about the scanner and the canonical form. -/

theorem noAdjTexts_cons (e : Entry) (l : List Entry)
    (h : noAdjTexts (e :: l) = true) : noAdjTexts l = true := by
  cases e with
  | mk ty u =>
    cases ty with
    | tag =>
      cases l with
      | nil => rfl
      | cons f l2 => cases f with | mk ty2 v => cases ty2 <;> simpa [noAdjTexts] using h
    | text =>
      cases l with
      | nil => rfl
      | cons f l2 =>
        cases f with
        | mk ty2 v =>
          cases ty2 with
          | text => simp [noAdjTexts] at h
          | tag => simpa [noAdjTexts] using h

theorem noAdjTexts_tag_cons (v : List Char) (l : List Entry) :
    noAdjTexts (⟨EntryType.tag, v⟩ :: l) = noAdjTexts l := by
  cases l with
  | nil => rfl
  | cons f l2 => cases f with | mk ty2 u => cases ty2 <;> rfl

theorem noAdjTexts_text_cons (w : List Char) (l : List Entry)
    (h : noAdjTexts l = true) (h2 : headIsText l = false) :
    noAdjTexts (⟨EntryType.text, w⟩ :: l) = true := by
  cases l with
  | nil => rfl
  | cons f l2 =>
    cases f with
    | mk ty2 u =>
      cases ty2 with
      | text => simp [headIsText] at h2
      | tag => simpa [noAdjTexts] using h

theorem valuesNonempty_append (a b : List Entry) :
    valuesNonempty (a ++ b) = (valuesNonempty a && valuesNonempty b) := by
  simp [valuesNonempty, List.all_append]

theorem scanSM_valuesNonempty (s : List Char) :
    ∀ acc st, valuesNonempty (scanSM s acc st) = true := by
  induction s with
  | nil =>
    intro acc st
    cases st with
    | none =>
      by_cases h : acc = [] <;>
        simp [scanSM, h, valuesNonempty, List.isEmpty_iff]
    | some pend => simp [scanSM, valuesNonempty, List.isEmpty_iff]
  | cons c rest ih =>
    intro acc st
    cases st with
    | none =>
      by_cases hc : c = '{' <;> simp [scanSM, hc, ih]
    | some pend =>
      by_cases hc : c = '}'
      · by_cases hp : pend = []
        · simp [scanSM, hc, hp, ih]
        · have h1 := ih [] none
          simp [valuesNonempty, List.isEmpty_iff] at h1
          by_cases ha : acc = [] <;>
            simp [scanSM, hc, hp, ha, valuesNonempty_append,
              valuesNonempty, List.isEmpty_iff] <;>
            exact h1
      · simp [scanSM, hc, ih]

theorem scanSM_noAdjTexts (s : List Char) :
    ∀ acc st, noAdjTexts (scanSM s acc st) = true := by
  induction s with
  | nil =>
    intro acc st
    cases st with
    | none => by_cases h : acc = [] <;> simp [scanSM, h, noAdjTexts]
    | some pend => simp [scanSM, noAdjTexts]
  | cons c rest ih =>
    intro acc st
    cases st with
    | none => by_cases hc : c = '{' <;> simp [scanSM, hc, ih]
    | some pend =>
      by_cases hc : c = '}'
      · by_cases hp : pend = []
        · simp [scanSM, hc, hp, ih]
        · by_cases ha : acc = []
          · simpa [scanSM, hc, hp, ha, noAdjTexts_tag_cons] using ih [] none
          · simpa [scanSM, hc, hp, ha, noAdjTexts, noAdjTexts_tag_cons]
              using ih [] none
      · simp [scanSM, hc, ih]

theorem contentToString_append (a b : List Entry) :
    contentToString (a ++ b) = contentToString a ++ contentToString b := by
  simp [contentToString]

theorem contentToString_scanSM (s : List Char) :
    ∀ acc st, contentToString (scanSM s acc st) =
      acc.reverse ++ (match st with
        | none => s
        | some pend => '{' :: pend.reverse ++ s) := by
  induction s with
  | nil =>
    intro acc st
    cases st with
    | none => by_cases h : acc = [] <;> simp [scanSM, h, contentToString]
    | some pend => simp [scanSM, contentToString]
  | cons c rest ih =>
    intro acc st
    cases st with
    | none =>
      by_cases hc : c = '{'
      · simp [scanSM, hc, ih]
      · simp [scanSM, hc, ih]
    | some pend =>
      by_cases hc : c = '}'
      · by_cases hp : pend = []
        · simp [scanSM, hc, hp, ih]
        · have h1 := ih [] none
          simp [contentToString] at h1
          by_cases ha : acc = [] <;>
            simp [scanSM, hc, hp, ha, contentToString_append,
              contentToString, h1]
      · simp [scanSM, hc, ih]

/-- The bracketed-string decoder is lossless: re-encoding its output
reproduces the input string exactly, so no part of the input is ever
dropped. -/
theorem contentToString_parseStringToContent (s : List Char) :
    contentToString (parseStringToContent s) = s := by
  by_cases h : s = []
  · simp [parseStringToContent, h, contentToString]
  · simpa [parseStringToContent, h] using contentToString_scanSM s [] none

theorem scanSM_no_close (s : List Char) :
    ∀ acc pend, '}' ∉ s →
      scanSM s acc (some pend) =
        [⟨EntryType.text, acc.reverse ++ '{' :: pend.reverse ++ s⟩] := by
  induction s with
  | nil => intro acc pend _; simp [scanSM]
  | cons c rest ih =>
    intro acc pend h
    have hc : c ≠ '}' := fun hcc => h (hcc ▸ List.mem_cons_self c rest)
    have hrest : '}' ∉ rest := fun hm => h (List.mem_cons_of_mem c hm)
    simp [scanSM, hc, ih _ _ hrest]

theorem scanSM_open_to_end (u : List Char) (hu : '}' ∉ u) (s : List Char) :
    ∀ acc st, ∃ pre w, scanSM (s ++ '{' :: u) acc st =
      pre ++ [⟨EntryType.text, w ++ '{' :: u⟩] := by
  induction s with
  | nil =>
    intro acc st
    cases st with
    | none =>
      refine ⟨[], acc.reverse, ?_⟩
      simp [scanSM, scanSM_no_close u acc [] hu]
    | some pend =>
      refine ⟨[], acc.reverse ++ '{' :: pend.reverse, ?_⟩
      have hob : ('{' : Char) ≠ '}' := by decide
      simp [scanSM, hob, scanSM_no_close u acc ('{' :: pend) hu]
  | cons c rest ih =>
    intro acc st
    cases st with
    | none =>
      by_cases hc : c = '{'
      · obtain ⟨pre, w, hw⟩ := ih acc (some [])
        exact ⟨pre, w, by simp [scanSM, hc, hw]⟩
      · obtain ⟨pre, w, hw⟩ := ih (c :: acc) none
        exact ⟨pre, w, by simp [scanSM, hc, hw]⟩
    | some pend =>
      by_cases hc : c = '}'
      · by_cases hp : pend = []
        · obtain ⟨pre, w, hw⟩ := ih ('}' :: '{' :: acc) none
          exact ⟨pre, w, by simp [scanSM, hc, hp, hw]⟩
        · obtain ⟨pre, w, hw⟩ := ih [] none
          refine ⟨(if acc = [] then [] else [⟨EntryType.text, acc.reverse⟩]) ++
            ⟨EntryType.tag, pend.reverse⟩ :: pre, w, ?_⟩
          simp [scanSM, hc, hp, hw]
      · obtain ⟨pre, w, hw⟩ := ih acc (some (c :: pend))
        exact ⟨pre, w, by simp [scanSM, hc, hw]⟩

theorem scanSM_text_chunk (t : List Char) (s : List Char) :
    ∀ acc, '{' ∉ t →
      scanSM (t ++ s) acc none = scanSM s (t.reverse ++ acc) none := by
  induction t with
  | nil => intro acc _; simp
  | cons c rest ih =>
    intro acc h
    have hc : c ≠ '{' := fun hcc => h (hcc ▸ List.mem_cons_self c rest)
    have hrest : '{' ∉ rest := fun hm => h (List.mem_cons_of_mem c hm)
    simp [scanSM, hc, ih _ hrest, List.append_assoc]

theorem scanSM_tag_chunk (c : List Char) (s : List Char) :
    ∀ acc pend, '}' ∉ c →
      scanSM (c ++ s) acc (some pend) =
        scanSM s acc (some (c.reverse ++ pend)) := by
  induction c with
  | nil => intro acc pend _; simp
  | cons x rest ih =>
    intro acc pend h
    have hx : x ≠ '}' := fun hxx => h (hxx ▸ List.mem_cons_self x rest)
    have hrest : '}' ∉ rest := fun hm => h (List.mem_cons_of_mem x hm)
    simp [scanSM, hx, ih _ _ hrest, List.append_assoc]

theorem pushText_pushText (a b : List Char) (l : List Entry) :
    pushText a (pushText b l) = pushText (a ++ b) l := by
  by_cases hb : b = []
  · simp [pushText, hb]
  · by_cases ha : a = []
    · simp [pushText, ha]
    · have hab : a ++ b ≠ [] := by simp [ha]
      cases l with
      | nil => simp [pushText, ha, hb, hab]
      | cons e l2 =>
        cases e with
        | mk ty u => cases ty <;> simp [pushText, ha, hb, hab]

theorem scanSM_contentToString (b : List Entry)
    (htag : tagValuesOK b = true) (htext : textValuesNoBrace b = true) :
    ∀ acc, scanSM (contentToString b) acc none =
      pushText acc.reverse (normalize b) := by
  induction b with
  | nil =>
    intro acc
    by_cases h : acc = [] <;>
      simp [contentToString, scanSM, normalize, pushText, h]
  | cons e rest ih =>
    have htagr : tagValuesOK rest = true := by
      simp only [tagValuesOK, List.all_cons, Bool.and_eq_true] at htag
      exact htag.2
    have htextr : textValuesNoBrace rest = true := by
      simp only [textValuesNoBrace, List.all_cons, Bool.and_eq_true] at htext
      exact htext.2
    intro acc
    cases e with
    | mk ty v =>
      cases ty with
      | text =>
        have hv : '{' ∉ v := by
          simp only [textValuesNoBrace, List.all_cons, Bool.and_eq_true] at htext
          simpa using htext.1
        have henc : contentToString (⟨EntryType.text, v⟩ :: rest) =
            v ++ contentToString rest := by
          simp [contentToString]
        rw [henc, scanSM_text_chunk v (contentToString rest) acc hv,
          ih htagr htextr]
        simp [normalize, pushText_pushText]
      | tag =>
        have hv1 : v ≠ [] := by
          simp only [tagValuesOK, List.all_cons, Bool.and_eq_true] at htag
          have := htag.1
          simp only [Bool.and_eq_true, Bool.not_eq_true'] at this
          simpa [List.isEmpty_iff] using this.1
        have hv2 : '}' ∉ v := by
          simp only [tagValuesOK, List.all_cons, Bool.and_eq_true] at htag
          have := htag.1
          simp only [Bool.and_eq_true, Bool.not_eq_true'] at this
          simpa using this.2
        have henc : contentToString (⟨EntryType.tag, v⟩ :: rest) =
            '{' :: (v ++ '}' :: contentToString rest) := by
          simp [contentToString]
        have hvrev : v.reverse ≠ [] := by simpa using hv1
        rw [henc]
        have hob : ('{' : Char) = '{' := rfl
        simp only [scanSM, if_pos hob]
        rw [scanSM_tag_chunk v ('}' :: contentToString rest) acc [] hv2]
        have hcl : ('}' : Char) = '}' := rfl
        simp only [scanSM, if_pos hcl, List.append_nil, if_neg hvrev]
        rw [ih htagr htextr []]
        by_cases ha : acc = [] <;>
          simp [ha, normalize, pushText, List.reverse_reverse]

theorem normalize_eq_nil_of_encode_nil (b : List Entry)
    (h : contentToString b = []) : normalize b = [] := by
  induction b with
  | nil => rfl
  | cons e rest ih =>
    cases e with
    | mk ty v =>
      cases ty with
      | text =>
        simp only [contentToString, List.map_cons, List.flatten_cons,
          if_pos rfl, List.append_eq_nil] at h
        have hv : v = [] := h.1
        have hrest : contentToString rest = [] := by
          simpa [contentToString] using h.2
        simp [normalize, hv, pushText, ih hrest]
      | tag =>
        simp [contentToString] at h

/-- The spec round-trip law for the bracketed-string form, under the side
conditions that every tag identifier is non-empty and free of closing
braces, and no text run contains an open brace. -/
theorem parse_contentToString_eq_normalize (b : List Entry)
    (htag : tagValuesOK b = true) (htext : textValuesNoBrace b = true) :
    parseStringToContent (contentToString b) = normalize b := by
  by_cases h : contentToString b = []
  · simp [parseStringToContent, h, normalize_eq_nil_of_encode_nil b h]
  · have := scanSM_contentToString b htag htext []
    simpa [parseStringToContent, h, pushText] using this

theorem headIsText_normalize (l : List Entry) (h : headIsText l = false) :
    headIsText (normalize l) = false := by
  cases l with
  | nil => rfl
  | cons e rest =>
    cases e with
    | mk ty v =>
      cases ty with
      | text => simp [headIsText] at h
      | tag => simp [normalize, headIsText]

theorem pushText_of_headNotText (t : List Char) (l : List Entry)
    (ht : t ≠ []) (h : headIsText l = false) :
    pushText t l = ⟨EntryType.text, t⟩ :: l := by
  cases l with
  | nil => simp [pushText, ht]
  | cons e rest =>
    cases e with
    | mk ty v =>
      cases ty with
      | text => simp [headIsText] at h
      | tag => simp [pushText, ht]

theorem noAdjTexts_pushText (t : List Char) (l : List Entry)
    (h : noAdjTexts l = true) : noAdjTexts (pushText t l) = true := by
  by_cases ht : t = []
  · simpa [pushText, ht] using h
  · cases l with
    | nil => simp [pushText, ht, noAdjTexts]
    | cons e rest =>
      cases e with
      | mk ty v =>
        cases ty with
        | text =>
          have hrest : headIsText rest = false := by
            cases rest with
            | nil => rfl
            | cons f r2 =>
              cases f with
              | mk ty2 w =>
                cases ty2 with
                | text => simp [noAdjTexts] at h
                | tag => rfl
          have h2 : noAdjTexts rest = true := noAdjTexts_cons _ _ h
          simp only [pushText, ht, if_neg ht]
          exact noAdjTexts_text_cons _ _ h2 hrest
        | tag =>
          simp only [pushText, ht, if_neg ht]
          exact noAdjTexts_text_cons _ _ h rfl

theorem textValuesNonempty_pushText (t : List Char) (l : List Entry)
    (h : textValuesNonempty l = true) :
    textValuesNonempty (pushText t l) = true := by
  by_cases ht : t = []
  · simpa [pushText, ht] using h
  · cases l with
    | nil => simp [pushText, ht, textValuesNonempty, List.isEmpty_iff]
    | cons e rest =>
      cases e with
      | mk ty v =>
        cases ty with
        | text =>
          simp only [textValuesNonempty, List.all_cons, Bool.and_eq_true] at h
          simp [pushText, ht, textValuesNonempty, List.isEmpty_iff, h.2]
        | tag =>
          simp only [textValuesNonempty, List.all_cons, Bool.and_eq_true] at h
          simp [pushText, ht, textValuesNonempty, List.isEmpty_iff, h.2]

theorem noAdjTexts_normalize (b : List Entry) :
    noAdjTexts (normalize b) = true := by
  induction b with
  | nil => rfl
  | cons e rest ih =>
    cases e with
    | mk ty v =>
      cases ty with
      | text => simpa [normalize] using noAdjTexts_pushText v _ ih
      | tag => simpa [normalize, noAdjTexts_tag_cons] using ih

theorem textValuesNonempty_normalize (b : List Entry) :
    textValuesNonempty (normalize b) = true := by
  induction b with
  | nil => rfl
  | cons e rest ih =>
    cases e with
    | mk ty v =>
      cases ty with
      | text => simpa [normalize] using textValuesNonempty_pushText v _ ih
      | tag => simpa [normalize, textValuesNonempty] using ih

theorem normalize_eq_self (l : List Entry)
    (h1 : textValuesNonempty l = true) (h2 : noAdjTexts l = true) :
    normalize l = l := by
  induction l with
  | nil => rfl
  | cons e rest ih =>
    have h1r : textValuesNonempty rest = true := by
      simp only [textValuesNonempty, List.all_cons, Bool.and_eq_true] at h1
      exact h1.2
    have h2r : noAdjTexts rest = true := noAdjTexts_cons _ _ h2
    cases e with
    | mk ty v =>
      cases ty with
      | text =>
        have hv : v ≠ [] := by
          simp only [textValuesNonempty, List.all_cons, Bool.and_eq_true] at h1
          have := h1.1
          simpa [List.isEmpty_iff] using this
        have hrest : headIsText rest = false := by
          cases rest with
          | nil => rfl
          | cons f r2 =>
            cases f with
            | mk ty2 w =>
              cases ty2 with
              | text => simp [noAdjTexts] at h2
              | tag => rfl
        rw [normalize, if_pos rfl, ih h1r h2r]
        exact pushText_of_headNotText v rest hv hrest
      | tag => simp [normalize, ih h1r h2r]

/-- Normalization is idempotent. -/
theorem normalize_idem (b : List Entry) :
    normalize (normalize b) = normalize b :=
  normalize_eq_self _ (textValuesNonempty_normalize b) (noAdjTexts_normalize b)

/-- The list-form round trip: rendering a buffer into the edit surface and
reading it back through the trimming reconcile of the list-form variant
reproduces the normalized buffer, provided no two text entries are
adjacent, text values carry no surrounding whitespace, and tag identifiers
are non-empty. -/
theorem list_roundtrip (b : List Entry)
    (h1 : noAdjTexts b = true)
    (h2 : ∀ e ∈ b, e.type = EntryType.text → trimChars e.value = e.value)
    (h3 : tagValuesOK b = true) :
    updateModelValueList (renderModelValue b) = normalize b := by
  induction b with
  | nil => rfl
  | cons e rest ih =>
    have h1r : noAdjTexts rest = true := noAdjTexts_cons _ _ h1
    have h2r : ∀ e ∈ rest, e.type = EntryType.text → trimChars e.value = e.value :=
      fun e he => h2 e (List.mem_cons_of_mem _ he)
    have h3r : tagValuesOK rest = true := by
      simp only [tagValuesOK, List.all_cons, Bool.and_eq_true] at h3
      exact h3.2
    cases e with
    | mk ty v =>
      cases ty with
      | text =>
        have hv : trimChars v = v := h2 _ (List.mem_cons_self _ _) rfl
        by_cases hve : v = []
        · have ihr := ih h1r h2r h3r
          simp only [renderModelValue] at ihr
          have htr : trimChars ([] : List Char) = [] := rfl
          simp [renderModelValue, updateModelValueList, hv, hve, htr,
            normalize, pushText, ihr]
        · have hrest : headIsText rest = false := by
            cases rest with
            | nil => rfl
            | cons f r2 =>
              cases f with
              | mk ty2 w =>
                cases ty2 with
                | text => simp [noAdjTexts] at h1
                | tag => rfl
          have hmerge := pushText_of_headNotText v (normalize rest) hve
            (headIsText_normalize rest hrest)
          simp only [renderModelValue, List.map_cons, if_pos rfl,
            updateModelValueList, hv, if_neg hve, normalize, hmerge]
          exact congrArg _ (by simpa [renderModelValue] using ih h1r h2r h3r)
      | tag =>
        have hv : v ≠ [] := by
          simp only [tagValuesOK, List.all_cons, Bool.and_eq_true] at h3
          have := h3.1
          simp only [Bool.and_eq_true, Bool.not_eq_true'] at this
          simpa [List.isEmpty_iff] using this.1
        have hne : (EntryType.tag = EntryType.text) = False := by
          simp
        simp only [renderModelValue, List.map_cons, hne, if_false,
          updateModelValueList, if_neg hv, normalize]
        refine congrArg _ ?_
        have : (EntryType.tag = EntryType.text) = False := hne
        simpa [renderModelValue, normalize, this] using ih h1r h2r h3r

theorem updateModelValueList_eq_cfg (nodes : List DomNode) :
    updateModelValueList nodes = updateModelValueCfg true nodes := by
  induction nodes with
  | nil => rfl
  | cons n rest ih =>
    cases n <;> simp [updateModelValueList, updateModelValueCfg, ih]

theorem updateModelValue_eq_cfg (nodes : List DomNode) :
    updateModelValue nodes = updateModelValueCfg false nodes := by
  induction nodes with
  | nil => rfl
  | cons n rest ih =>
    cases n <;> simp [updateModelValue, updateModelValueCfg, ih]

theorem cfg_eq_of_trimInvariant (nodes : List DomNode)
    (h : surfaceTrimInvariant nodes = true) :
    updateModelValueCfg true nodes = updateModelValueCfg false nodes := by
  induction nodes with
  | nil => rfl
  | cons n rest ih =>
    have hr : surfaceTrimInvariant rest = true := by
      simp only [surfaceTrimInvariant, List.all_cons, Bool.and_eq_true] at h
      exact h.2
    cases n with
    | textNode s =>
      have hs : trimChars s = s := by
        simp only [surfaceTrimInvariant, List.all_cons, Bool.and_eq_true] at h
        simpa using h.1
      simp [updateModelValueCfg, hs, ih hr]
    | tagContainer t => simp [updateModelValueCfg, ih hr]
    | otherElement => simp [updateModelValueCfg, ih hr]

theorem isTagContainer_eq_false_of_not_element (n : DomNode)
    (h : isElement n = false) : isTagContainer n = false := by
  cases n <;> simp_all [isElement, isTagContainer]

theorem findTagToDelete_root_blocked (nodes : List DomNode) (off : Nat)
    (s : List Char) (h1 : off < nodes.length)
    (h2 : nodes[off - 1]? = some (DomNode.textNode s)) :
    findTagToDelete nodes (Caret.root off) = none := by
  have hne : off ≠ nodes.length := Nat.ne_of_lt h1
  by_cases h0 : off > 0
  · simp [findTagToDelete, h0, h2, isTagContainer, hne]
  · simp [findTagToDelete, h0, hne]

theorem filter_isElement_eq_nil (l : List DomNode)
    (h : ∀ n ∈ l, isElement n = false) : l.filter isElement = [] := by
  refine List.filter_eq_nil_iff.mpr ?_
  intro n hn
  simp [h n hn]

theorem findTagToDelete_root_end (pre : List DomNode) (t : List Char)
    (trailing : List DomNode) (h : ∀ n ∈ trailing, isElement n = false) :
    findTagToDelete (pre ++ DomNode.tagContainer t :: trailing)
      (Caret.root (pre.length + 1 + trailing.length)) =
      some (DomNode.tagContainer t) := by
  rcases List.eq_nil_or_concat trailing with htr | ⟨ys, y, rfl⟩
  · subst htr
    have hidx : (pre ++ [DomNode.tagContainer t])[pre.length + 1 - 1]? =
        some (DomNode.tagContainer t) := by
      have := List.getElem?_concat_length pre (DomNode.tagContainer t)
      simp only [Nat.add_sub_cancel]
      exact this
    simp [findTagToDelete, hidx, isTagContainer]
  · have hy : isElement y = false := h y (by simp)
    have hys : ∀ n ∈ ys, isElement n = false :=
      fun n hn => h n (by simp [hn])
    have hsplit : pre ++ DomNode.tagContainer t :: (ys ++ [y]) =
        (pre ++ DomNode.tagContainer t :: ys) ++ [y] := by simp
    have hlen : pre.length + 1 + ys.length =
        (pre ++ DomNode.tagContainer t :: ys).length := by
      simp; omega
    have hidx : (pre ++ DomNode.tagContainer t :: (ys ++ [y]))[pre.length + 1 +
        ys.length]? = some y := by
      rw [hsplit, hlen]
      exact List.getElem?_concat_length _ y
    have hpos : 0 < pre.length + 1 + (ys ++ [y]).length := by simp
    have hlast : lastElementChild (pre ++ DomNode.tagContainer t :: (ys ++ [y])) =
        some (DomNode.tagContainer t) := by
      unfold lastElementChild
      rw [List.filter_append, List.filter_cons]
      have hfil : (ys ++ [y]).filter isElement = [] :=
        filter_isElement_eq_nil _ (by intro n hn; rcases List.mem_append.mp hn with h1 | h1
                                      · exact hys n h1
                                      · rw [List.mem_singleton.mp h1]; exact hy)
      simp [hfil, isElement, List.getLast?_concat]
    have hoffm : pre.length + 1 + (ys ++ [y]).length - 1 =
        pre.length + 1 + ys.length := by
      simp only [List.length_append, List.length_cons, List.length_nil]
      omega
    have hofflen : pre.length + 1 + (ys ++ [y]).length =
        (pre ++ DomNode.tagContainer t :: (ys ++ [y])).length := by
      simp only [List.length_append, List.length_cons, List.length_nil]
      omega
    have hyf := isTagContainer_eq_false_of_not_element y hy
    simp only [List.concat_eq_append]
    simp only [findTagToDelete]
    rw [if_pos hpos, hoffm, hidx]
    simp only [hyf, Bool.false_eq_true, if_false]
    rw [if_pos hofflen, hlast]
    simp [isTagContainer]

theorem updateModelValue_valuesNonempty (nodes : List DomNode) :
    valuesNonempty (updateModelValue nodes) = true := by
  induction nodes with
  | nil => rfl
  | cons n rest ih =>
    cases n with
    | textNode s =>
      by_cases hs : s = [] <;>
        simp [updateModelValue, hs, valuesNonempty, List.isEmpty_iff] <;>
        simpa [valuesNonempty, List.isEmpty_iff] using ih
    | tagContainer t =>
      by_cases ht : t = [] <;>
        simp [updateModelValue, ht, valuesNonempty, List.isEmpty_iff] <;>
        simpa [valuesNonempty, List.isEmpty_iff] using ih
    | otherElement => simpa [updateModelValue] using ih

/-! The claims. -/

/-- C1, counterexample.  The buffer holding the text " azz" followed by a
token with identifier a}b is reachable through the mutation engine (decode
the string " azz", then insert that token at the end of the buffer), yet
decoding its bracketed-string encoding does not give the normalized buffer
(the closing brace inside the identifier ends the delimiter early), and
the list-form render/read-back cycle does not either (the list-form
reconcile trims the leading space).  So the round-trip law fails as stated
for both serialization forms. -/
theorem c1_roundtrip_counterexample :
    Reachable [⟨EntryType.text, [' ','a','z','z']⟩, ⟨EntryType.tag, ['a','}','b']⟩] ∧
    parseStringToContent (contentToString
        [⟨EntryType.text, [' ','a','z','z']⟩, ⟨EntryType.tag, ['a','}','b']⟩]) ≠
      normalize [⟨EntryType.text, [' ','a','z','z']⟩, ⟨EntryType.tag, ['a','}','b']⟩] ∧
    updateModelValueList (renderModelValue
        [⟨EntryType.text, [' ','a','z','z']⟩, ⟨EntryType.tag, ['a','}','b']⟩]) ≠
      normalize [⟨EntryType.text, [' ','a','z','z']⟩, ⟨EntryType.tag, ['a','}','b']⟩] := by
  refine ⟨?_, by decide, by decide⟩
  have h1 : parseStringToContent [' ','a','z','z'] =
      [⟨EntryType.text, [' ','a','z','z']⟩] := by decide
  have h2 := Reachable.insert _ 1 ['a','}','b'] (Reachable.init [' ','a','z','z'])
  rw [h1] at h2
  have h3 : insertToken [⟨EntryType.text, [' ','a','z','z']⟩] 1 ['a','}','b'] =
      [⟨EntryType.text, [' ','a','z','z']⟩, ⟨EntryType.tag, ['a','}','b']⟩] := by decide
  rwa [h3] at h2

/-- C1, amended.  For every reachable buffer the round-trip law holds with
the side conditions the counterexample forces: for the bracketed-string
form, decoding the encoding equals the normalized buffer provided every
tag identifier is non-empty and free of closing braces and no text run
contains an open brace; for the list form (whose read-back trims), the
render/read-back cycle equals the normalized buffer provided additionally
no two text entries are adjacent and text runs carry no surrounding
whitespace. -/
theorem c1_roundtrip_amended (b : List Entry) (_hr : Reachable b) :
    (tagValuesOK b = true → textValuesNoBrace b = true →
      parseStringToContent (contentToString b) = normalize b) ∧
    (tagValuesOK b = true → noAdjTexts b = true →
      (∀ e ∈ b, e.type = EntryType.text → trimChars e.value = e.value) →
      updateModelValueList (renderModelValue b) = normalize b) :=
  ⟨fun h1 h2 => parse_contentToString_eq_normalize b h1 h2,
   fun h1 h2 h3 => list_roundtrip b h2 h3 h1⟩

/-- C1, witness: the round-trip laws at the reachable buffer holding the
text "hi" and the token gift. -/
theorem c1_roundtrip_witness :
    parseStringToContent (contentToString
        [⟨EntryType.text, ['h','i']⟩, ⟨EntryType.tag, ['g','i','f','t']⟩]) =
      normalize [⟨EntryType.text, ['h','i']⟩, ⟨EntryType.tag, ['g','i','f','t']⟩] ∧
    updateModelValueList (renderModelValue
        [⟨EntryType.text, ['h','i']⟩, ⟨EntryType.tag, ['g','i','f','t']⟩]) =
      normalize [⟨EntryType.text, ['h','i']⟩, ⟨EntryType.tag, ['g','i','f','t']⟩] := by
  have h1 : parseStringToContent ['h','i','{','g','i','f','t','}'] =
      [⟨EntryType.text, ['h','i']⟩, ⟨EntryType.tag, ['g','i','f','t']⟩] := by decide
  have hr : Reachable [⟨EntryType.text, ['h','i']⟩, ⟨EntryType.tag, ['g','i','f','t']⟩] :=
    h1 ▸ Reachable.init ['h','i','{','g','i','f','t','}']
  exact ⟨(c1_roundtrip_amended _ hr).1 (by decide) (by decide),
    (c1_roundtrip_amended _ hr).2 (by decide) (by decide) (by decide)⟩

/-- C2, counterexample.  Decoding "a{ghost}b" yields a tag entry for ghost
regardless of any Token Catalog (the decoder never consults one), not the
single Text segment "a{ghost}b" the claim requires. -/
theorem c2_unknown_token_counterexample :
    parseStringToContent ['a','{','g','h','o','s','t','}','b'] =
      [⟨EntryType.text, ['a']⟩, ⟨EntryType.tag, ['g','h','o','s','t']⟩,
       ⟨EntryType.text, ['b']⟩] ∧
    parseStringToContent ['a','{','g','h','o','s','t','}','b'] ≠
      [⟨EntryType.text, ['a','{','g','h','o','s','t','}','b']⟩] := by
  exact ⟨by decide, by decide⟩

/-- C2, amended.  Every identifier captured by the delimiter pattern
decodes as a Token segment whether or not it is in the Token Catalog; the
catalog only affects the rendered label, which falls back to the
identifier itself for an unknown token.  In particular "a{ghost}b" decodes
to the three segments Text "a", Token "ghost", Text "b", and the empty
catalog renders ghost with label "ghost". -/
theorem c2_unknown_token_amended :
    parseStringToContent ['a','{','g','h','o','s','t','}','b'] =
      [⟨EntryType.text, ['a']⟩, ⟨EntryType.tag, ['g','h','o','s','t']⟩,
       ⟨EntryType.text, ['b']⟩] ∧
    displayLabel [] ['g','h','o','s','t'] = ['g','h','o','s','t'] := by
  exact ⟨by decide, rfl⟩

/-- C3, counterexample.  Deleting the token between the texts "a" and "b"
leaves two adjacent text nodes in the DOM, and the reconcile step
(updateModelValue) re-derives a buffer with two consecutive Text entries:
the buffer after the operation is not in canonical form. -/
theorem c3_canonical_counterexample :
    updateModelValue ((removeElementAndAdjustCursor
        [DomNode.textNode ['a'], DomNode.tagContainer ['t'], DomNode.textNode ['b']]
        1).1) =
      [⟨EntryType.text, ['a']⟩, ⟨EntryType.text, ['b']⟩] ∧
    noAdjTexts [⟨EntryType.text, ['a']⟩, ⟨EntryType.text, ['b']⟩] = false := by
  exact ⟨by decide, by decide⟩

/-- C3, amended.  After reconcile no entry has an empty value, and the
spec-level normalize is idempotent, but two consecutive Text entries can
survive an operation (see the counterexample); the merge only happens in
the serialized string: the model string emitted after deleting a Token
that sat between two Texts decodes to the single merged Text segment. -/
theorem c3_canonical_amended :
    (∀ nodes, valuesNonempty (updateModelValue nodes) = true) ∧
    (∀ b, normalize (normalize b) = normalize b) ∧
    parseStringToContent (contentToString (updateModelValue
        ((removeElementAndAdjustCursor
          [DomNode.textNode ['a'], DomNode.tagContainer ['t'], DomNode.textNode ['b']]
          1).1))) =
      [⟨EntryType.text, ['a','b']⟩] := by
  exact ⟨updateModelValue_valuesNonempty, normalize_idem, by decide⟩

/-- C4, counterexample.  With the buffer holding Token "a" followed by the
non-empty text "hello" and the caret reported at the root container after
both children, findTagToDelete targets Token "a" even though a non-empty
Text segment lies between the boundary and the token; the claim requires
no Token target there. -/
theorem c4_backspace_counterexample :
    findTagToDelete [DomNode.tagContainer ['a'], DomNode.textNode ['h','e','l','l','o']]
      (Caret.root 2) = some (DomNode.tagContainer ['a']) ∧
    findTagToDelete [DomNode.tagContainer ['a'], DomNode.textNode ['h','e','l','l','o']]
      (Caret.root 2) ≠ none := by
  exact ⟨by decide, by decide⟩

/-- C4, amended.  At a root boundary strictly before the end of the
children only the immediately preceding child is examined: whenever it is
a text node — empty or not — no Token is targeted (so an empty Text there
does block the walk-back, against the spec, and character deletion
proceeds).  At a root boundary equal to the child count the last element
child is targeted when it is a tag container, skipping every trailing
text node whether empty or non-empty (so a non-empty Text does not block
targeting there, also against the spec). -/
theorem c4_backspace_amended :
    (∀ nodes off s, off < List.length nodes →
        nodes[off - 1]? = some (DomNode.textNode s) →
        findTagToDelete nodes (Caret.root off) = none) ∧
    (∀ pre t trailing, (∀ n ∈ trailing, isElement n = false) →
        findTagToDelete (pre ++ DomNode.tagContainer t :: trailing)
          (Caret.root (List.length pre + 1 + List.length trailing)) =
          some (DomNode.tagContainer t)) :=
  ⟨fun nodes off s h1 h2 => findTagToDelete_root_blocked nodes off s h1 h2,
   fun pre t trailing h => findTagToDelete_root_end pre t trailing h⟩

/-- C4, witness: the empty text node at the offset blocks the walk-back in
the middle of the buffer, and a trailing non-empty text node does not
block the targeting at the end of the buffer. -/
theorem c4_backspace_witness :
    findTagToDelete [DomNode.tagContainer ['a'], DomNode.textNode [],
      DomNode.textNode ['x']] (Caret.root 2) = none ∧
    findTagToDelete [DomNode.tagContainer ['b'], DomNode.textNode ['h','i']]
      (Caret.root 2) = some (DomNode.tagContainer ['b']) := by
  constructor
  · exact c4_backspace_amended.1
      [DomNode.tagContainer ['a'], DomNode.textNode [], DomNode.textNode ['x']]
      2 [] (by decide) (by decide)
  · have := c4_backspace_amended.2 [] ['b'] [DomNode.textNode ['h','i']] (by decide)
    simpa using this

/-- C5.  On the buffer Token "x" followed by an empty Text, with the caret
at the end of the root container, findTagToDelete resolves to Token "x";
and on Token "a" followed by two empty Texts with the caret at
end-of-buffer it resolves to Token "a": empty Text segments do not block
the walk-back. -/
theorem c5_boundary_backspace :
    findTagToDelete [DomNode.tagContainer ['x'], DomNode.textNode []]
      (Caret.root 2) = some (DomNode.tagContainer ['x']) ∧
    findTagToDelete [DomNode.tagContainer ['a'], DomNode.textNode [],
      DomNode.textNode []] (Caret.root 3) = some (DomNode.tagContainer ['a']) := by
  exact ⟨by decide, by decide⟩

/-- C6.  Decoding a bracketed string with an unterminated open brace (no
closing brace anywhere after it) keeps everything from that brace to the
end of the input as literal text: the decoder (a total function) ends its
output with a Text entry carrying the open brace and the whole trailing
input as a suffix, and re-encoding the output reproduces the input
exactly, so no trailing input is ever dropped. -/
theorem c6_unterminated_literal (t u : List Char) (hu : '}' ∉ u) :
    (∃ pre w, parseStringToContent (t ++ '{' :: u) =
      pre ++ [⟨EntryType.text, w ++ '{' :: u⟩]) ∧
    contentToString (parseStringToContent (t ++ '{' :: u)) = t ++ '{' :: u := by
  constructor
  · have h : (t ++ '{' :: u) ≠ [] := by simp
    rw [parseStringToContent, if_neg h]
    exact scanSM_open_to_end u hu t [] none
  · exact contentToString_parseStringToContent _

/-- C6, witness: decoding "a{b". -/
theorem c6_unterminated_witness :
    (∃ pre w, parseStringToContent (['a'] ++ '{' :: ['b']) =
      pre ++ [⟨EntryType.text, w ++ '{' :: ['b']⟩]) ∧
    contentToString (parseStringToContent (['a'] ++ '{' :: ['b'])) =
      ['a'] ++ '{' :: ['b'] :=
  c6_unterminated_literal ['a'] ['b'] (by decide)

/-- C7.  Deleting child i removes exactly that one node: the result is the
unchanged prefix before i followed by the unchanged suffix after i (so
every other segment keeps its content and relative order and none is
split or truncated), exactly one node is gone, and the resulting caret is
the root position immediately preceding where the removed node stood. -/
theorem c7_delete_frame (nodes : List DomNode) (i : Nat)
    (h : i < List.length nodes) :
    (removeElementAndAdjustCursor nodes i).1 =
      nodes.take i ++ nodes.drop (i + 1) ∧
    List.length (removeElementAndAdjustCursor nodes i).1 + 1 =
      List.length nodes ∧
    (removeElementAndAdjustCursor nodes i).2 = Caret.root i := by
  refine ⟨List.eraseIdx_eq_take_drop_succ nodes i, ?_, rfl⟩
  simpa [removeElementAndAdjustCursor] using List.length_eraseIdx_add_one h

/-- C7, witness: deleting the token between two texts. -/
theorem c7_delete_frame_witness :
    (removeElementAndAdjustCursor [DomNode.textNode ['a'],
        DomNode.tagContainer ['t'], DomNode.textNode ['b']] 1).1 =
      List.take 1 [DomNode.textNode ['a'], DomNode.tagContainer ['t'],
        DomNode.textNode ['b']] ++
      List.drop 2 [DomNode.textNode ['a'], DomNode.tagContainer ['t'],
        DomNode.textNode ['b']] ∧
    List.length (removeElementAndAdjustCursor [DomNode.textNode ['a'],
        DomNode.tagContainer ['t'], DomNode.textNode ['b']] 1).1 + 1 =
      List.length [DomNode.textNode ['a'], DomNode.tagContainer ['t'],
        DomNode.textNode ['b']] ∧
    (removeElementAndAdjustCursor [DomNode.textNode ['a'],
        DomNode.tagContainer ['t'], DomNode.textNode ['b']] 1).2 =
      Caret.root 1 :=
  c7_delete_frame [DomNode.textNode ['a'], DomNode.tagContainer ['t'],
    DomNode.textNode ['b']] 1 (by decide)

/-- C8.  When no range was remembered, or the remembered range no longer
lies inside the container, the token-insert request resolves to the
default range, which is the end-of-buffer position, a valid position of
the buffer; so a valid insertion position is always obtained. -/
theorem c8_default_position (nodes : List DomNode) (saved : Option Caret)
    (h : saved = none ∨ ∃ r, saved = some r ∧ rangeInContainer nodes r = false) :
    handleTagClickTargetRange nodes saved = getDefaultRange nodes ∧
    getDefaultRange nodes = Caret.root (List.length nodes) ∧
    caretValid nodes (getDefaultRange nodes) = true := by
  refine ⟨?_, rfl, by simp [caretValid, getDefaultRange]⟩
  rcases h with h | ⟨r, hr, hf⟩
  · simp [handleTagClickTargetRange, h]
  · simp [handleTagClickTargetRange, hr, hf]

/-- C8, witness: a stale saved range pointing at a text node that no
longer exists falls back to the end of the buffer. -/
theorem c8_default_position_witness :
    handleTagClickTargetRange [DomNode.tagContainer ['g']]
        (some (Caret.inText 0 0)) =
      getDefaultRange [DomNode.tagContainer ['g']] ∧
    getDefaultRange [DomNode.tagContainer ['g']] = Caret.root 1 ∧
    caretValid [DomNode.tagContainer ['g']]
      (getDefaultRange [DomNode.tagContainer ['g']]) = true :=
  c8_default_position [DomNode.tagContainer ['g']] (some (Caret.inText 0 0))
    (Or.inr ⟨Caret.inText 0 0, rfl, by decide⟩)

/-- C9.  The two observed reconcile variants are exactly the two instances
of the one flag-parametrized reconcile stated by the spec — the list-form
variant is the trimming instance, the string-form variant the verbatim
instance, so they differ only in the trimming of text entries — and on
any surface whose text nodes carry no surrounding whitespace the two
variants produce the same entry sequence. -/
theorem c9_trim_refinement :
    (∀ nodes, updateModelValueList nodes = updateModelValueCfg true nodes) ∧
    (∀ nodes, updateModelValue nodes = updateModelValueCfg false nodes) ∧
    (∀ nodes, surfaceTrimInvariant nodes = true →
      updateModelValueList nodes = updateModelValue nodes) := by
  refine ⟨updateModelValueList_eq_cfg, updateModelValue_eq_cfg, ?_⟩
  intro nodes h
  rw [updateModelValueList_eq_cfg, updateModelValue_eq_cfg]
  exact cfg_eq_of_trimInvariant nodes h

/-- C9, witness: on a whitespace-clean surface the two variants agree. -/
theorem c9_trim_refinement_witness :
    updateModelValueList [DomNode.textNode ['h','i'], DomNode.tagContainer ['g']] =
      updateModelValue [DomNode.textNode ['h','i'], DomNode.tagContainer ['g']] :=
  c9_trim_refinement.2.2
    [DomNode.textNode ['h','i'], DomNode.tagContainer ['g']] (by decide)

/-- C10.  For every input string the bracketed-string decoder produces
only entries with non-empty values (text and tag alike) and never two
consecutive text entries; in particular the two-character substring of an
open brace directly followed by a closing brace is never decoded as a
token and stays literal text. -/
theorem c10_decode_invariants :
    (∀ s, valuesNonempty (parseStringToContent s) = true) ∧
    (∀ s, noAdjTexts (parseStringToContent s) = true) ∧
    parseStringToContent ['{','}'] = [⟨EntryType.text, ['{','}']⟩] ∧
    parseStringToContent ['a','{','}','b'] = [⟨EntryType.text, ['a','{','}','b']⟩] := by
  refine ⟨?_, ?_, by decide, by decide⟩
  · intro s
    by_cases h : s = []
    · simp [parseStringToContent, h, valuesNonempty]
    · simpa [parseStringToContent, h] using scanSM_valuesNonempty s [] none
  · intro s
    by_cases h : s = []
    · simp [parseStringToContent, h, noAdjTexts]
    · simpa [parseStringToContent, h] using scanSM_noAdjTexts s [] none

end TagInput
